import Mathlib

/-!
Verification development for the Transparov chess engine core.

Shallow embedding of the repository's Rust sources:
  * `src/engine/ttable.rs`  — Move16 codec, packed TT entries, `TTable::probe`,
    `TTable::save`, `TTEntry::entry_type`;
  * `src/engine/search.rs`  — `alphabeta`, `quiesce`, `order_moves`, the
    `RwLock<HashMap>` score cache used by this search;
  * `src/engine/threads.rs` — `ThreadPool::elect_best_move`.

The chess library (`chess` crate: boards, legal move generation, `make_move_new`,
the static evaluator) is an external collaborator; positions are modelled as
finitely-branching game trees that record exactly the data the engine reads from
the library: the status, the static evaluation, the legal moves with the
positions they lead to, and the masked capture moves used by quiescence.
Machine integers are modelled as `Nat`/`Int` with explicit wrap-arounds
(`% 256`, `% 65536`) at the points where the Rust code works in `u8`/`u16`.
-/

namespace Transparov

/-! ## Move16 codec (src/engine/ttable.rs, lines 18-76)

`chess::Piece` indices are 0..5 (pawn, knight, bishop, rook, queen, king);
`ALL_PIECES` lists them in index order, and the four legal promotion pieces
have indices 1..4. -/

inductive Piece where
  | pawn | knight | bishop | rook | queen | king
  deriving DecidableEq

def Piece.toIndex : Piece → Nat
  | .pawn => 0
  | .knight => 1
  | .bishop => 2
  | .rook => 3
  | .queen => 4
  | .king => 5

def ALL_PIECES : List Piece := [.pawn, .knight, .bishop, .rook, .queen, .king]

def PROMOTION_PIECES : List Piece := [.knight, .bishop, .rook, .queen]

/-- The `chess::ChessMove` value type: source and destination squares (indices
0..63) and an optional promotion piece. -/
@[ext] structure ChessMove where
  source : Fin 64
  dest : Fin 64
  promotion : Option Piece
  deriving DecidableEq

/-- From-conversion `ChessMove → Move16` (ttable.rs lines 38-51): the source in
bits 10-15, the destination in bits 4-9, a promotion flag in bit 2 and the
promotion piece index minus one in bits 0-1.  The Rust code computes
`piece.to_index() as u16 - 1` in `u16`, which wraps on a pawn; the addition of
65535 models that two's-complement wrap. -/
def move16_from_chessmove (m : ChessMove) : Nat :=
  let src := m.source.val <<< 10
  let dest := m.dest.val <<< 4
  let prom_flag : Nat := match m.promotion with
    | none => 0
    | some _ => 1
  let prom_piece : Nat := match m.promotion with
    | none => 0
    | some p => (p.toIndex + 65535) &&& 3
  src ||| dest ||| (prom_flag <<< 2) ||| prom_piece

/-- From-conversion `Move16 → ChessMove` (ttable.rs lines 53-76): extract the
two squares, and when bit 2 is set look the promotion piece up in
`ALL_PIECES[(mv16 & 3) + 1]`. -/
def chessmove_from_move16 (w : Nat) : ChessMove :=
  { source := ⟨(w >>> 10) &&& 63, Nat.lt_succ_of_le Nat.and_le_right⟩
    dest := ⟨(w >>> 4) &&& 63, Nat.lt_succ_of_le Nat.and_le_right⟩
    promotion :=
      if w &&& (1 <<< 2) != 0 then some (ALL_PIECES.getD ((w &&& 3) + 1) .pawn)
      else none }

/-! ## Packed transposition-table entries (src/engine/ttable.rs)

A `TTEntry` is `#[repr(C, align(8))] { key16: u16, mv: u16, eval: i16,
depth: u8, genbound: u8 }` and is stored in an `AtomicU64` through a
`transmute`; on the little-endian layout the word is the byte-concatenation of
the fields, which `encodeEntry`/`decodeEntry` model. -/

structure TTEntry where
  key16 : Nat
  mv : Nat
  eval : Int
  depth : Nat
  genbound : Nat
  deriving DecidableEq

/-- Two's-complement image of an `i16` value in `0..65536`. -/
def evalToU16 (v : Int) : Nat := (v % 65536).toNat

/-- Reading an `i16` back from its two's-complement image. -/
def u16ToEval (n : Nat) : Int := if n < 32768 then (n : Int) else (n : Int) - 65536

/-- The `u64` image of a `TTEntry` (the `From<TTEntry> for u64` transmute):
`key16` in bits 0-15, `mv` in bits 16-31, `eval` in bits 32-47, `depth` in
bits 48-55, `genbound` in bits 56-63. -/
def encodeEntry (e : TTEntry) : Nat :=
  e.key16 % 65536 + e.mv % 65536 * 65536 + evalToU16 e.eval * 4294967296 +
    e.depth % 256 * 281474976710656 + e.genbound % 256 * 72057594037927936

/-- The `From<u64> for TTEntry` transmute: split the word back into fields. -/
def decodeEntry (w : Nat) : TTEntry :=
  { key16 := w % 65536
    mv := w / 65536 % 65536
    eval := u16ToEval (w / 4294967296 % 65536)
    depth := w / 281474976710656 % 256
    genbound := w / 72057594037927936 % 256 }

/-- Entry types (ttable.rs lines 305-311): `Pv = 1 << 2`, `Cut = 1 << 1`,
`All = 1 << 0`. -/
inductive EntryType where
  | pv | cut | all
  deriving DecidableEq

/-- The discriminant of an `EntryType` (the `From<EntryType> for u8` transmute). -/
def EntryType.toBits : EntryType → Nat
  | .pv => 4
  | .cut => 2
  | .all => 1

/-- The `From<u8> for EntryType` transmute is only meaningful on the three
declared discriminants; on any other byte it is undefined behaviour, modelled
as `none`. -/
def EntryType.ofBits : Nat → Option EntryType
  | 4 => some .pv
  | 2 => some .cut
  | 1 => some .all
  | _ => none

/-- `TTEntry::entry_type` (ttable.rs lines 118-121): the code masks `genbound`
with `!0 << 3` (that is `0xF8` in `u8`) and transmutes the result. -/
def entry_type (e : TTEntry) : Option EntryType :=
  EntryType.ofBits (e.genbound &&& (255 <<< 3 % 256))

/-! ## `TTable::probe` and `TTable::save` (ttable.rs lines 141-256)

Generation constants: `GEN_BITS = 3`, `GEN_DELTA = 1 << 3`,
`GEN_CYCLE = 0xFF + GEN_DELTA` (in `u16`), `GEN_MASK = (0xFF << 3) & 0xFF`.
A cluster holds four slots, each an atomic `u64` word; `probe` touches exactly
one cluster, so the model works on that cluster's list of slot words.  The
handle returned is the slot index within the cluster. -/

def GEN_BITS : Nat := 3
def GEN_DELTA : Nat := 1 <<< GEN_BITS
def GEN_CYCLE : Nat := 255 + GEN_DELTA
def GEN_MASK : Nat := (255 <<< GEN_BITS) % 256

/-- `TTable::entry_age` (ttable.rs lines 245-249): the age in `u16` masked to
`u8`, subtracted from the depth with `u8` wrapping. -/
def entry_age (gen8 : Nat) (e : TTEntry) : Nat :=
  let age := ((GEN_CYCLE + gen8 % 256 - e.genbound % 256) &&& GEN_MASK) % 256
  (e.depth % 256 + 256 - age) % 256

/-- `mul_hi_64` (ttable.rs lines 258-261): upper half of the 128-bit product. -/
def mul_hi_64 (x y : Nat) : Nat := x % 18446744073709551616 * (y % 18446744073709551616) >>> 64

/-- The slot scan of `TTable::probe` (ttable.rs lines 177-198).  Arguments:
the generation counter, the probe key, the remaining slot words, the tracked
replacement candidate and its index (the code initialises `replace_idx = 0`
and does not update it when first setting `replace_entry`), and the index of
the next slot.  Returns the probe result (the entry found, if any, and the
handle) together with the cluster's slot words after the write-back. -/
def probeGo (gen8 key16 : Nat) :
    List Nat → Option TTEntry → Nat → Nat → (Option TTEntry × Nat) × List Nat
  | [], _, replaceIdx, _ => ((none, replaceIdx), [])
  | w :: rest, replaceE, replaceIdx, idx =>
    let e := decodeEntry w
    if e.key16 == key16 || e.depth != 0 then
      let e2 := { e with genbound := gen8 % 256 ||| (e.genbound &&& (GEN_DELTA - 1)) }
      ((if e2.depth != 0 then some e2 else none, idx), encodeEntry e2 :: rest)
    else
      let rp : Option TTEntry × Nat :=
        match replaceE with
        | some re =>
          if entry_age gen8 re > entry_age gen8 e then (some e, idx) else (some re, replaceIdx)
        | none => (some e, replaceIdx)
      let out := probeGo gen8 key16 rest rp.1 rp.2 (idx + 1)
      (out.1, w :: out.2)

/-- `TTable::probe` (ttable.rs lines 166-201) restricted to the cluster the
board hashes to: `key16` is the low 16 bits of the board's Zobrist hash. -/
def probe (gen8 : Nat) (cluster : List Nat) (hash : Nat) : (Option TTEntry × Nat) × List Nat :=
  probeGo gen8 (hash % 65536) cluster none 0 0

/-- `TTable::save` (ttable.rs lines 203-214) acting on the slot word named by
the handle: replace only when the new depth exceeds the stored depth. -/
def save (gen8 : Nat) (word : Nat) (hash mv : Nat) (eval : Int) (depth : Nat)
    (et : EntryType) : Nat :=
  let entry := decodeEntry word
  if depth > entry.depth then
    encodeEntry
      { key16 := hash % 65536, mv := mv, eval := eval, depth := depth
        genbound := gen8 % 256 ||| et.toBits }
  else word

/-! ## Theorems about the transposition table and the Move16 codec -/

/-- Decoding the packed word of an in-range entry recovers the entry. -/
theorem decode_encode (e : TTEntry) (h1 : e.key16 < 65536) (h2 : e.mv < 65536)
    (h3 : -32768 ≤ e.eval) (h4 : e.eval < 32768) (h5 : e.depth < 256)
    (h6 : e.genbound < 256) : decodeEntry (encodeEntry e) = e := by
  obtain ⟨k, m, v, d, g⟩ := e
  simp only [encodeEntry, decodeEntry, evalToU16, u16ToEval, TTEntry.mk.injEq] at *
  have hv : ((v % 65536).toNat : Int) = v % 65536 :=
    Int.toNat_of_nonneg (Int.emod_nonneg v (by norm_num))
  have hv2 : (v % 65536).toNat < 65536 := by
    have := Int.emod_lt_of_pos v (show (0:Int) < 65536 by norm_num)
    omega
  refine ⟨by omega, by omega, ?_, by omega, by omega⟩
  have hx : (k % 65536 + m % 65536 * 65536 + (v % 65536).toNat * 4294967296 +
      d % 256 * 281474976710656 + g % 256 * 72057594037927936) / 4294967296 % 65536 =
      (v % 65536).toNat := by omega
  rw [hx]
  split <;> omega

/-- C1: the claim asserts that `TTable::probe` only ever returns an entry whose
`key16` equals the low 16 bits of the probed hash.  The code's slot condition
is `entry.key16 == key16 || entry.depth != 0` (ttable.rs line 179), so the
first non-empty slot is returned even when its key differs: probing hash `7`
against a cluster whose first slot holds an entry stored under key `5` returns
that entry, although `5 ≠ 7 % 65536`.  (The spec's stated condition is
`key16` matches or `depth == 0`.) -/
theorem c1_probe_returns_mismatched_key :
    (probe 0 [encodeEntry ⟨5, 9, 0, 3, 0⟩, 0, 0, 0] 7).1.1 = some ⟨5, 9, 0, 3, 0⟩ ∧
      (5 : Nat) ≠ 7 % 65536 := by
  decide

/-- C3: `TTable::save` writes the packed entry (low 16 hash bits, the move,
the eval, the depth, and the current generation OR'd with the entry-type bits)
exactly when the new depth is strictly greater than the stored depth, and
leaves the slot's 64-bit word completely unchanged otherwise. -/
theorem c3_save_replace_by_depth (gen8 word hash mv : Nat) (eval : Int) (depth : Nat)
    (et : EntryType) (hmv : mv < 65536) (he1 : -32768 ≤ eval) (he2 : eval < 32768)
    (hd : depth < 256) (hg : gen8 < 256) :
    (depth > (decodeEntry word).depth →
      decodeEntry (save gen8 word hash mv eval depth et) =
        ⟨hash % 65536, mv, eval, depth, gen8 ||| et.toBits⟩) ∧
    (depth ≤ (decodeEntry word).depth → save gen8 word hash mv eval depth et = word) := by
  constructor
  · intro h
    have hge : gen8 % 256 = gen8 := Nat.mod_eq_of_lt hg
    have hbits : et.toBits < 256 := by cases et <;> simp [EntryType.toBits]
    have hlor : gen8 ||| et.toBits < 256 :=
      Nat.or_lt_two_pow (n := 8) hg hbits
    rw [save]
    simp only [h, if_pos, gt_iff_lt, hge]
    exact decode_encode _ (Nat.mod_lt _ (by norm_num)) hmv he1 he2 hd hlor
  · intro h
    rw [save]
    simp only [if_neg (by omega : ¬ depth > (decodeEntry word).depth)]

set_option maxHeartbeats 1600000 in
/-- Witness for C3 at a concrete slot: an empty slot (word 0) is overwritten by
a depth-3 save, and the decoded result carries the packed fields. -/
theorem c3_save_replace_by_depth_witness :
    decodeEntry (save 8 0 70000 100 (-5) 3 .cut) = ⟨70000 % 65536, 100, -5, 3, 8 ||| 2⟩ :=
  (c3_save_replace_by_depth 8 0 70000 100 (-5) 3 .cut (by decide) (by decide) (by decide)
    (by decide) (by decide)).1 (by decide)

/-- A 16-bit pack of disjoint fields is the corresponding sum. -/
theorem encode_decompose (s d f q : Nat) (hd : d < 64) (hf : f < 2) (hq : q < 4) :
    (s <<< 10) ||| (d <<< 4) ||| (f <<< 2) ||| q = 1024 * s + 16 * d + 4 * f + q := by
  rw [Nat.shiftLeft_eq, Nat.shiftLeft_eq, Nat.shiftLeft_eq]
  have h1 : s * 2 ^ 10 ||| d * 2 ^ 4 = 2 ^ 10 * s + d * 2 ^ 4 := by
    rw [Nat.mul_comm s]
    exact (Nat.mul_add_lt_is_or (by omega) s).symm
  rw [h1]
  have e1 : 2 ^ 10 * s + d * 2 ^ 4 = 2 ^ 4 * (64 * s + d) := by ring
  have h2 : 2 ^ 4 * (64 * s + d) ||| f * 2 ^ 2 = 2 ^ 4 * (64 * s + d) + f * 2 ^ 2 :=
    (Nat.mul_add_lt_is_or (by omega) _).symm
  rw [e1, h2]
  have e2 : 2 ^ 4 * (64 * s + d) + f * 2 ^ 2 = 2 ^ 2 * (256 * s + 4 * d + f) := by ring
  have h3 : 2 ^ 2 * (256 * s + 4 * d + f) ||| q = 2 ^ 2 * (256 * s + 4 * d + f) + q :=
    (Nat.mul_add_lt_is_or (by omega) _).symm
  rw [e2, h3]
  ring

/-- Bits 10-15 of the packed word recover the source square. -/
theorem decode_src (s d f q : Nat) (hs : s < 64) (hd : d < 64) (hf : f < 2) (hq : q < 4) :
    ((1024 * s + 16 * d + 4 * f + q) >>> 10) &&& 63 = s := by
  rw [Nat.shiftRight_eq_div_pow, show (63 : Nat) = 2 ^ 6 - 1 by norm_num,
    Nat.and_pow_two_sub_one_eq_mod]
  omega

/-- Bits 4-9 of the packed word recover the destination square. -/
theorem decode_dest (s d f q : Nat) (hs : s < 64) (hd : d < 64) (hf : f < 2) (hq : q < 4) :
    ((1024 * s + 16 * d + 4 * f + q) >>> 4) &&& 63 = d := by
  rw [Nat.shiftRight_eq_div_pow, show (63 : Nat) = 2 ^ 6 - 1 by norm_num,
    Nat.and_pow_two_sub_one_eq_mod]
  omega

/-- Bit 2 of the packed word recovers the promotion flag. -/
theorem decode_flag (s d f q : Nat) (hd : d < 64) (hf : f < 2) (hq : q < 4) :
    (1024 * s + 16 * d + 4 * f + q) &&& (1 <<< 2) = 4 * f := by
  rw [show (1 <<< 2 : Nat) = 2 ^ 2 by decide, Nat.and_two_pow, Nat.testBit_to_div_mod]
  have hy : (1024 * s + 16 * d + 4 * f + q) / 2 ^ 2 % 2 = f := by omega
  rw [hy]
  interval_cases f <;> simp

/-- Bits 0-1 of the packed word recover the promotion piece index. -/
theorem decode_prom (s d f q : Nat) (hd : d < 64) (hf : f < 2) (hq : q < 4) :
    (1024 * s + 16 * d + 4 * f + q) &&& 3 = q := by
  rw [show (3 : Nat) = 2 ^ 2 - 1 by norm_num, Nat.and_pow_two_sub_one_eq_mod]
  omega

/-- C4: converting a `ChessMove` (source ≠ destination, promotion absent or one
of knight, bishop, rook, queen) to `Move16` and back is the identity. -/
theorem c4_move16_round_trip :
    ∀ (s d : Fin 64), s ≠ d →
      ∀ p ∈ ([none, some .knight, some .bishop, some .rook, some .queen] :
          List (Option Piece)),
        chessmove_from_move16 (move16_from_chessmove ⟨s, d, p⟩) = ⟨s, d, p⟩ := by
  intro s d _ p hp
  have hs := s.isLt
  have hd := d.isLt
  have key : ∀ f q : Nat, f < 2 → q < 4 →
      (chessmove_from_move16 (1024 * s.val + 16 * d.val + 4 * f + q)).source = s ∧
      (chessmove_from_move16 (1024 * s.val + 16 * d.val + 4 * f + q)).dest = d ∧
      (chessmove_from_move16 (1024 * s.val + 16 * d.val + 4 * f + q)).promotion =
        (if 4 * f != 0 then some (ALL_PIECES.getD (q + 1) .pawn) else none) := by
    intro f q hf hq
    refine ⟨Fin.ext ?_, Fin.ext ?_, ?_⟩
    · exact decode_src s.val d.val f q hs hd hf hq
    · exact decode_dest s.val d.val f q hs hd hf hq
    · simp only [chessmove_from_move16, decode_flag s.val d.val f q hd hf hq,
        decode_prom s.val d.val f q hd hf hq]
  fin_cases hp
  · have he : move16_from_chessmove ⟨s, d, none⟩ =
        s.val <<< 10 ||| d.val <<< 4 ||| (0 <<< 2) ||| 0 := rfl
    obtain ⟨h1, h2, h3⟩ := key 0 0 (by omega) (by omega)
    rw [he, encode_decompose s.val d.val 0 0 hd (by omega) (by omega)]
    exact ChessMove.ext h1 h2 (by simpa using h3)
  · have he : move16_from_chessmove ⟨s, d, some .knight⟩ =
        s.val <<< 10 ||| d.val <<< 4 ||| (1 <<< 2) ||| 0 := rfl
    obtain ⟨h1, h2, h3⟩ := key 1 0 (by omega) (by omega)
    rw [he, encode_decompose s.val d.val 1 0 hd (by omega) (by omega)]
    exact ChessMove.ext h1 h2 (by simpa [ALL_PIECES] using h3)
  · have he : move16_from_chessmove ⟨s, d, some .bishop⟩ =
        s.val <<< 10 ||| d.val <<< 4 ||| (1 <<< 2) ||| 1 := rfl
    obtain ⟨h1, h2, h3⟩ := key 1 1 (by omega) (by omega)
    rw [he, encode_decompose s.val d.val 1 1 hd (by omega) (by omega)]
    exact ChessMove.ext h1 h2 (by simpa [ALL_PIECES] using h3)
  · have he : move16_from_chessmove ⟨s, d, some .rook⟩ =
        s.val <<< 10 ||| d.val <<< 4 ||| (1 <<< 2) ||| 2 := rfl
    obtain ⟨h1, h2, h3⟩ := key 1 2 (by omega) (by omega)
    rw [he, encode_decompose s.val d.val 1 2 hd (by omega) (by omega)]
    exact ChessMove.ext h1 h2 (by simpa [ALL_PIECES] using h3)
  · have he : move16_from_chessmove ⟨s, d, some .queen⟩ =
        s.val <<< 10 ||| d.val <<< 4 ||| (1 <<< 2) ||| 3 := rfl
    obtain ⟨h1, h2, h3⟩ := key 1 3 (by omega) (by omega)
    rw [he, encode_decompose s.val d.val 1 3 hd (by omega) (by omega)]
    exact ChessMove.ext h1 h2 (by simpa [ALL_PIECES] using h3)

/-- Witness for C4 at a concrete move: a2a1 promoting to a queen. -/
theorem c4_move16_round_trip_witness :
    chessmove_from_move16 (move16_from_chessmove ⟨⟨8, by decide⟩, ⟨0, by decide⟩, some .queen⟩) =
      ⟨⟨8, by decide⟩, ⟨0, by decide⟩, some .queen⟩ :=
  c4_move16_round_trip ⟨8, by decide⟩ ⟨0, by decide⟩ (by decide) (some .queen) (by decide)

/-- C5: the claim asserts that `TTEntry::entry_type` recovers the entry type
from a `genbound` byte composed as `generation | type`.  The code masks with
`!0 << 3 = 0xF8` (ttable.rs line 119), which keeps the generation bits and
drops the type bits, so the transmuted value is never one of the three
`EntryType` discriminants: for every generation (a multiple of 8 below 256)
and every type, `entry_type` yields no valid entry type; in particular a `Pv`
entry of generation 8 (genbound `8 | 4 = 12`) does not decode to `Pv`. -/
theorem c5_entry_type_loses_type_bits :
    (∀ g : Fin 32, ∀ et ∈ [EntryType.pv, EntryType.cut, EntryType.all],
        entry_type ⟨0, 0, 0, 0, g.val * 8 ||| et.toBits⟩ = none) ∧
      entry_type ⟨0, 0, 0, 0, 8 ||| EntryType.toBits .pv⟩ ≠ some .pv := by
  decide

/-! ## The search core (src/engine/search.rs)

The `chess` crate is an external collaborator; a position is modelled as a
finitely-branching game tree recording exactly what the search reads from the
library: `status()`, the static evaluation `eval::evaluate_board`, the legal
moves paired with the positions `make_move_new` produces, and the legal moves
whose destination the quiescence mask (`set_iterator_mask` over the opponent's
occupied squares) retains — each paired with its resulting position.  The
`count` field models the total number of pieces on the board; the mask
guarantees every masked move lands on (and removes) an opponent piece, which
the well-formedness predicate `WFb` expresses. -/

namespace Search

inductive BoardStatus where
  | ongoing | stalemate | checkmate
  deriving DecidableEq

mutual
inductive Board where
  | mk (status : BoardStatus) (ev : Int) (count : Nat) (moves : BList) (captures : BList)
  deriving DecidableEq
inductive BList where
  | nil
  | cons (mv : Nat) (pos : Board) (tl : BList)
  deriving DecidableEq
end

def Board.status : Board → BoardStatus
  | .mk s _ _ _ _ => s

/-- The external static evaluator `eval::evaluate_board`; the tree records its
value at each position. -/
def evaluate_board : Board → Int
  | .mk _ e _ _ _ => e

def Board.count : Board → Nat
  | .mk _ _ n _ _ => n

def Board.moves : Board → BList
  | .mk _ _ _ m _ => m

def Board.captures : Board → BList
  | .mk _ _ _ _ c => c

def BList.toList : BList → List (Nat × Board)
  | .nil => []
  | .cons mv pos tl => (mv, pos) :: tl.toList

mutual
/-- Well-formedness of the capture lists: every masked capture strictly
decreases the piece count (the mask keeps only moves whose destination square
is occupied by the opponent, so the moved-to piece is removed), recursively. -/
def WFb : Board → Bool
  | .mk _ _ cnt _ caps => WFl cnt caps

def WFl : Nat → BList → Bool
  | _, .nil => true
  | cnt, .cons _ pos rest => (decide (pos.count < cnt) && WFb pos) && WFl cnt rest
end

/-- `chess::Board::make_move_new` restricted to the recorded legal moves; on a
move that is not legal the library's behaviour is unspecified and the model
returns the board unchanged (the search only ever reaches this through an
unvalidated cache move). -/
def make_move_new (board : Board) (mv : Nat) : Board :=
  match board.moves.toList.find? (fun p => p.1 == mv) with
  | some p => p.2
  | none => board

def SCORE_MATE : Int := 10000000

/-! ### `quiesce` (search.rs lines 309-340) -/

mutual
/-- `quiesce`: stand pat on the static eval, then search the masked captures. -/
def quiesce (b : Board) (alpha beta : Int) : Int :=
  match b with
  | .mk _ ev _ _ caps =>
    if ev ≥ beta then beta
    else qloop caps (if alpha < ev then ev else alpha) beta

/-- The capture loop of `quiesce`: each entry of the capture list is a masked
legal move paired with the position `make_move_new` yields for it. -/
def qloop (caps : BList) (alpha beta : Int) : Int :=
  match caps with
  | .nil => alpha
  | .cons _ pos rest =>
    let score := -quiesce pos (-beta) (-alpha)
    if score ≥ beta then beta
    else qloop rest (if score > alpha then score else alpha) beta
end

/-- Fuel-indexed variant of `quiesce` used to state termination: recursive
calls are only made while fuel remains, and when the fuel runs out the capture
loop is skipped. -/
def qloopFuelGo (recur : Board → Int → Int → Int) : BList → Int → Int → Int
  | .nil, alpha, _ => alpha
  | .cons _ pos rest, alpha, beta =>
    let score := -recur pos (-beta) (-alpha)
    if score ≥ beta then beta
    else qloopFuelGo recur rest (if score > alpha then score else alpha) beta

def quiesceFuel : Nat → Board → Int → Int → Int
  | 0, b, alpha, beta =>
    let ev := evaluate_board b
    if ev ≥ beta then beta else (if alpha < ev then ev else alpha)
  | f + 1, b, alpha, beta =>
    let ev := evaluate_board b
    if ev ≥ beta then beta
    else qloopFuelGo (quiesceFuel f) b.captures (if alpha < ev then ev else alpha) beta

/-! ### `alphabeta` (search.rs lines 200-305)

The score cache of this search is an `Arc<RwLock<HashMap<Board, TableEntry>>>`;
its sequential semantics is a finite map threaded through the recursion. -/

inductive EntryType where
  | Pv | Cut | All
  deriving DecidableEq

structure EvalMove where
  mv : Nat
  eval : Int
  deriving DecidableEq

structure TableEntry where
  best_move : EvalMove
  old_depth : Nat
  entry_type : EntryType
  deriving DecidableEq

def Cache : Type := Board → Option TableEntry

/-- `HashMap::insert`. -/
def cacheInsert (c : Cache) (b : Board) (te : TableEntry) : Cache :=
  fun x => if x = b then some te else c x

/-- Insertion into a list kept in descending `eval` order; models
`rest.sort_unstable_by_key(|em| Reverse(*em))` (`EvalMove`'s order compares
evals only; the unstable tie order is unspecified in the source). -/
def insertDesc (em : EvalMove) : List EvalMove → List EvalMove
  | [] => [em]
  | e :: es => if em.eval ≥ e.eval then em :: e :: es else e :: insertDesc em es

def sortDesc (l : List EvalMove) : List EvalMove :=
  l.foldr insertDesc []

/-- `order_moves` (search.rs lines 176-198): the cached best move, when
present, is prepended verbatim as the prelude and filtered out of the rest;
the rest are scored by the negated static eval of the resulting position and
sorted descending. -/
def order_moves (board : Board) (best_move : Option EvalMove) : List EvalMove :=
  let rest := board.moves.toList.filterMap (fun p =>
    match best_move with
    | some em => if em.mv = p.1 then none else some ⟨p.1, -evaluate_board p.2⟩
    | none => some ⟨p.1, -evaluate_board p.2⟩)
  let pre := match best_move with
    | some em => [em]
    | none => []
  pre ++ sortDesc rest

/-- Models `legal.starts_with(&[*em])`: slice comparison uses `EvalMove`'s
`PartialEq`, which compares the `eval` fields only. -/
def legalStartsWith (legal : List EvalMove) (em : EvalMove) : Bool :=
  match legal with
  | [] => false
  | e0 :: _ => e0.eval == em.eval

/-- Outcome of the move loop: an early `return score` (or mate-pruning
return), or fall-through with the running `max` and candidate best move. -/
inductive LoopOut where
  | early (v : Int) (c : Cache)
  | done (maxv : Int) (bm : Option EvalMove) (c : Cache)

/-- The mate-pruning tail of each loop iteration (search.rs lines 277-290):
returns an early-return value if one fires, together with the updated window. -/
def matePruneStep (alpha beta winning losing : Int) : Option Int × Int × Int :=
  if winning < beta then
    if alpha ≥ winning then (some winning, alpha, winning)
    else if losing > alpha then
      if winning ≤ losing then (some losing, losing, winning)
      else (none, losing, winning)
    else (none, alpha, winning)
  else if losing > alpha then
    if beta ≤ losing then (some losing, losing, beta)
    else (none, losing, beta)
  else (none, alpha, beta)

/-- The score of one searched move (the branches of search.rs lines 252-260):
full-window for an unseen position or the principal variation, otherwise a
null-window search re-searched with the full window only when it beats alpha
(else the move scores `alpha`).  The Rust code binds each recursive search
result once; the searches are pure, so the model may repeat the expression. -/
def abScore (recur : Board → Cache → Int → Int → Nat → Int × Cache)
    (pos : Board) (position_unseen is_first : Bool) (alpha beta : Int) (rd : Nat)
    (c : Cache) : Int × Cache :=
  if position_unseen then
    (-(recur pos c (-beta) (-alpha) (rd + 1)).1, (recur pos c (-beta) (-alpha) (rd + 1)).2)
  else if is_first then
    (-(recur pos c (-beta) (-alpha) (rd + 1)).1, (recur pos c (-beta) (-alpha) (rd + 1)).2)
  else
    if -(recur pos c (-alpha - 1) (-alpha) (rd + 1)).1 > alpha then
      (-(recur pos (recur pos c (-alpha - 1) (-alpha) (rd + 1)).2 (-beta) (-alpha)
          (rd + 1)).1,
        (recur pos (recur pos c (-alpha - 1) (-alpha) (rd + 1)).2 (-beta) (-alpha)
          (rd + 1)).2)
    else (alpha, (recur pos c (-alpha - 1) (-alpha) (rd + 1)).2)

/-- The tail of one loop iteration after the mate-pruning step: an early
return if pruning fires, otherwise continue (`k`) with the updated running
state. -/
def abAfter (k : Int → Int → Int → Option EvalMove → Cache → LoopOut)
    (upd : Int × Int × Option EvalMove) (beta : Int) (rd : Nat) (c : Cache) : LoopOut :=
  match matePruneStep upd.2.1 beta (SCORE_MATE - rd) (-SCORE_MATE + rd) with
  | (some v, _, _) => .early v c
  | (none, alpha2, beta2) => k upd.1 alpha2 beta2 upd.2.2 c

/-- One loop iteration given the move's score: beta cutoff (`return score`,
search.rs lines 264-267), then the best/alpha update (lines 269-275), then
mate pruning (lines 277-290). -/
def abIter (k : Int → Int → Int → Option EvalMove → Cache → LoopOut)
    (em : EvalMove) (maxv alpha beta : Int) (bm : Option EvalMove) (rd : Nat)
    (sc : Int × Cache) : LoopOut :=
  if sc.1 ≥ beta then .early sc.1 sc.2
  else
    abAfter k
      (if sc.1 > maxv then (sc.1, if sc.1 > alpha then sc.1 else alpha, some ⟨em.mv, sc.1⟩)
        else (maxv, alpha, bm)) beta rd sc.2

/-- The move loop of `alphabeta` (search.rs lines 243-291).  `recur` is the
depth-(d-1) search; `position_unseen` and `legal` are fixed for the loop. -/
def abloop (recur : Board → Cache → Int → Int → Nat → Int × Cache)
    (board : Board) (position_unseen : Bool) (legal : List EvalMove) (rd : Nat) :
    List EvalMove → Int → Int → Int → Option EvalMove → Cache → LoopOut
  | [], maxv, _, _, bm, c => .done maxv bm c
  | em :: rest, maxv, alpha, beta, bm, c =>
    abIter
      (fun m a bb bmm cc => abloop recur board position_unseen legal rd rest m a bb bmm cc)
      em maxv alpha beta bm rd
      (abScore recur (make_move_new board em.mv) position_unseen
        (legalStartsWith legal em) alpha beta rd c)

/-- After the loop (search.rs lines 294-304): cache the best move (always with
type `Pv` and the current depth), then apply the mate-distance adjustment. -/
def abFinish (board : Board) (depth : Nat) : LoopOut → Int × Cache
  | .early v c => (v, c)
  | .done maxv bm c =>
    let c2 := match bm with
      | some em => cacheInsert c board ⟨em, depth, .Pv⟩
      | none => c
    (if maxv > 1000000 then maxv - 1 else if maxv < -1000000 then maxv + 1 else maxv, c2)

/-- `alphabeta` (search.rs lines 200-305).  At depth 0 it is `quiesce`; the
cache is read before the checkmate test; a cached entry at sufficient depth is
returned verbatim, a shallower one supplies the ordering hint and clears
`position_unseen`. -/
def alphabeta : Nat → Board → Cache → Int → Int → Nat → Int × Cache
  | 0, b, c, alpha, beta, _ => (quiesce b alpha beta, c)
  | d + 1, b, c, alpha, beta, rd =>
    let table_entry := c b
    if b.status = .checkmate then (-SCORE_MATE, c)
    else
      match table_entry with
      | some te =>
        if te.old_depth ≥ d + 1 then (te.best_move.eval, c)
        else
          let legal := order_moves b (some te.best_move)
          abFinish b (d + 1)
            (abloop (fun pos cc a bb r => alphabeta d pos cc a bb r) b false legal rd legal
              (-99999) alpha beta (some te.best_move) c)
      | none =>
        let legal := order_moves b none
        abFinish b (d + 1)
          (abloop (fun pos cc a bb r => alphabeta d pos cc a bb r) b true legal rd legal
            (-99999) alpha beta none c)

/-! ### The reference full-window negamax for C8

Modelled from the spec: the claimed reference search "recurses on every
ordered move with the full window `(-beta, -alpha)`" — identical to
`alphabeta` except that the loop never uses a null window. -/

def abloopRef (recur : Board → Cache → Int → Int → Nat → Int × Cache)
    (board : Board) (rd : Nat) :
    List EvalMove → Int → Int → Int → Option EvalMove → Cache → LoopOut
  | [], maxv, _, _, bm, c => .done maxv bm c
  | em :: rest, maxv, alpha, beta, bm, c =>
    abIter (fun m a bb bmm cc => abloopRef recur board rd rest m a bb bmm cc)
      em maxv alpha beta bm rd
      (-(recur (make_move_new board em.mv) c (-beta) (-alpha) (rd + 1)).1,
        (recur (make_move_new board em.mv) c (-beta) (-alpha) (rd + 1)).2)

def alphabetaRef : Nat → Board → Cache → Int → Int → Nat → Int × Cache
  | 0, b, c, alpha, beta, _ => (quiesce b alpha beta, c)
  | d + 1, b, c, alpha, beta, rd =>
    let table_entry := c b
    if b.status = .checkmate then (-SCORE_MATE, c)
    else
      match table_entry with
      | some te =>
        if te.old_depth ≥ d + 1 then (te.best_move.eval, c)
        else
          let legal := order_moves b (some te.best_move)
          abFinish b (d + 1)
            (abloopRef (fun pos cc a bb r => alphabetaRef d pos cc a bb r) b rd legal
              (-99999) alpha beta (some te.best_move) c)
      | none =>
        let legal := order_moves b none
        abFinish b (d + 1)
          (abloopRef (fun pos cc a bb r => alphabetaRef d pos cc a bb r) b rd legal
            (-99999) alpha beta none c)

/-! ### Theorems about `quiesce` and `alphabeta` -/

/-- A mated position with static evaluation 0 and no legal moves. -/
def exMate : Board := .mk .checkmate 0 2 .nil .nil

/-- C2 counterexample: the claim includes depth 0, but at depth 0 `alphabeta`
calls `quiesce` before ever testing the status (search.rs line 207), and
`quiesce` has no checkmate test: on the mated board `exMate` with window
(-100000, 100000) it returns the stand-pat value 0, not `-SCORE_MATE`. -/
theorem c2_counterexample :
    exMate.status = .checkmate ∧
      (alphabeta 0 exMate (fun _ => none) (-100000) 100000 0).1 = 0 ∧
      (alphabeta 0 exMate (fun _ => none) (-100000) 100000 0).1 ≠ -SCORE_MATE := by
  refine ⟨rfl, ?_, ?_⟩ <;> decide

/-- C2 amended: for every depth at least 1 (the claim said "including d = 0"),
`alphabeta` on a checkmated position returns `-SCORE_MATE`, for every cache,
window and root distance. -/
theorem c2_checkmate_detection (d : Nat) (b : Board) (c : Cache) (alpha beta : Int)
    (r : Nat) (hb : b.status = .checkmate) :
    (alphabeta (d + 1) b c alpha beta r).1 = -SCORE_MATE := by
  simp [alphabeta, hb]

/-- Witness for the amended C2 at the concrete mated board, depth 1. -/
theorem c2_checkmate_detection_witness :
    (alphabeta 1 exMate (fun _ => none) (-100000) 100000 0).1 = -SCORE_MATE :=
  c2_checkmate_detection 0 exMate (fun _ => none) (-100000) 100000 0 rfl

mutual
/-- `quiesce` is fail-hard: its value stays inside the window. -/
theorem quiesce_bound (b : Board) (alpha beta : Int) (h : alpha ≤ beta) :
    alpha ≤ quiesce b alpha beta ∧ quiesce b alpha beta ≤ beta :=
  match b with
  | .mk st ev cnt mvs caps => by
    rw [quiesce]
    split
    · exact ⟨h, le_refl beta⟩
    · rename_i hev
      have h2 : (if alpha < ev then ev else alpha) ≤ beta := by split <;> omega
      have h3 : alpha ≤ (if alpha < ev then ev else alpha) := by split <;> omega
      have hq := qloop_bound caps (if alpha < ev then ev else alpha) beta h2
      exact ⟨le_trans h3 hq.1, hq.2⟩

/-- The capture loop of `quiesce` is fail-hard. -/
theorem qloop_bound (caps : BList) (alpha beta : Int) (h : alpha ≤ beta) :
    alpha ≤ qloop caps alpha beta ∧ qloop caps alpha beta ≤ beta :=
  match caps with
  | .nil => by rw [qloop]; exact ⟨le_refl _, h⟩
  | .cons mv pos rest => by
    rw [qloop]
    have hrec := quiesce_bound pos (-beta) (-alpha) (by omega)
    split
    · exact ⟨h, le_refl _⟩
    · rename_i hscore
      have h4 : alpha ≤
          (if -quiesce pos (-beta) (-alpha) > alpha then -quiesce pos (-beta) (-alpha)
            else alpha) := by split <;> omega
      have h5 : (if -quiesce pos (-beta) (-alpha) > alpha then -quiesce pos (-beta) (-alpha)
          else alpha) ≤ beta := by
        have := hrec.1
        split <;> omega
      have hq := qloop_bound rest _ beta h5
      exact ⟨le_trans h4 hq.1, hq.2⟩
end

/-- C6: quiescence is fail-hard: for every board and window with
`alpha ≤ beta`, `quiesce` returns a value in the closed interval
`[alpha, beta]`. -/
theorem c6_quiesce_fail_hard (b : Board) (alpha beta : Int) (h : alpha ≤ beta) :
    alpha ≤ quiesce b alpha beta ∧ quiesce b alpha beta ≤ beta :=
  quiesce_bound b alpha beta h

/-- Witness for C6 at a concrete board with one capture. -/
theorem c6_quiesce_fail_hard_witness :
    (-3 : Int) ≤ quiesce (.mk .ongoing 1 3 .nil (.cons 4 (.mk .ongoing (-9) 2 .nil .nil) .nil)) (-3) 6 ∧
      quiesce (.mk .ongoing 1 3 .nil (.cons 4 (.mk .ongoing (-9) 2 .nil .nil) .nil)) (-3) 6 ≤ 6 :=
  c6_quiesce_fail_hard _ (-3) 6 (by decide)

/-- A two-ply line used to exhibit a beta cutoff: one legal move to a child of
evaluation -5. -/
def exC7 : Board := .mk .ongoing 0 5 (.cons 0 (.mk .ongoing (-5) 4 .nil .nil) .nil) .nil

/-- C7 counterexample: the claim asserts that a beta cutoff saves a `Cut`
entry into the table.  In the code the cutoff path (search.rs lines 264-267)
is a bare `return score` — nothing is inserted; the cache insert happens only
after the loop, and then with type `Pv` (line 295).  On `exC7` with window
(-10, 0) the first (only) move's recursive score is 0 ≥ beta, `alphabeta`
returns 0, and the resulting cache still holds no entry for `exC7`. -/
theorem c7_counterexample :
    (-(alphabeta 0 (make_move_new exC7 0) (fun _ => none) (-(0 : Int)) (-(-10 : Int)) 1).1
        ≥ (0 : Int)) ∧
      (alphabeta 1 exC7 (fun _ => none) (-10) 0 0).1 = 0 ∧
      (alphabeta 1 exC7 (fun _ => none) (-10) 0 0).2 exC7 = none := by
  refine ⟨by decide, by decide, by decide⟩

/-- C7 amended: whenever the move loop's searched move has recursive score at
least the current beta — at any iteration, for cached (seen) and uncached
(unseen) positions alike — the loop returns that score immediately with the
cache exactly as the score computation left it; `abFinish` passes an early
return through unchanged (no save at all on the cutoff path), and the only
cache writes `alphabeta` ever performs for the searched board happen when the
loop completes with a best move, and then always with type `Pv` and the
current depth.  The first two conjuncts reduce `alphabeta` (for an uncached
board and for a board with a shallower cached entry) to `abFinish` of the
loop, so the loop-level statements cover every path of the claim. -/
theorem c7_beta_cutoff_no_save (d : Nat) (b : Board) :
    (∀ (c : Cache) (alpha beta : Int) (r : Nat), c b = none → ¬ b.status = .checkmate →
      alphabeta (d + 1) b c alpha beta r =
        abFinish b (d + 1)
          (abloop (fun p cc a bb rr => alphabeta d p cc a bb rr) b true
            (order_moves b none) r (order_moves b none) (-99999) alpha beta none c)) ∧
    (∀ (c : Cache) (te : TableEntry) (alpha beta : Int) (r : Nat), c b = some te →
      te.old_depth < d + 1 → ¬ b.status = .checkmate →
      alphabeta (d + 1) b c alpha beta r =
        abFinish b (d + 1)
          (abloop (fun p cc a bb rr => alphabeta d p cc a bb rr) b false
            (order_moves b (some te.best_move)) r (order_moves b (some te.best_move))
            (-99999) alpha beta (some te.best_move) c)) ∧
    (∀ (pu : Bool) (legal : List EvalMove) (r : Nat) (em : EvalMove)
      (rest : List EvalMove) (maxv alpha beta : Int) (bm : Option EvalMove) (c : Cache),
      (abScore (fun p cc a bb rr => alphabeta d p cc a bb rr) (make_move_new b em.mv) pu
          (legalStartsWith legal em) alpha beta r c).1 ≥ beta →
      abloop (fun p cc a bb rr => alphabeta d p cc a bb rr) b pu legal r (em :: rest)
          maxv alpha beta bm c =
        .early
          (abScore (fun p cc a bb rr => alphabeta d p cc a bb rr) (make_move_new b em.mv)
            pu (legalStartsWith legal em) alpha beta r c).1
          (abScore (fun p cc a bb rr => alphabeta d p cc a bb rr) (make_move_new b em.mv)
            pu (legalStartsWith legal em) alpha beta r c).2) ∧
    (∀ (dep : Nat) (v : Int) (cc : Cache), abFinish b dep (.early v cc) = (v, cc)) ∧
    (∀ (dep : Nat) (maxv : Int) (bm : Option EvalMove) (cc : Cache) (x : Board),
      (abFinish b dep (.done maxv bm cc)).2 x ≠ cc x →
      x = b ∧ ∃ em2, bm = some em2 ∧
        (abFinish b dep (.done maxv bm cc)).2 x = some ⟨em2, dep, .Pv⟩) := by
  refine ⟨?_, ?_, ?_, ?_, ?_⟩
  · intro c alpha beta r h1 h2
    simp only [alphabeta, h1, h2, if_false]
  · intro c te alpha beta r h1 hod h2
    have hod2 : ¬ te.old_depth ≥ d + 1 := by omega
    simp only [alphabeta, h1, h2, if_false, hod2]
  · intro pu legal r em rest maxv alpha beta bm c h
    rw [abloop, abIter, if_pos h]
  · intro dep v cc
    rw [abFinish]
  · intro dep maxv bm cc x hx
    cases bm with
    | none => exact absurd rfl hx
    | some em2 =>
      by_cases hxb : x = b
      · exact ⟨hxb, em2, rfl, by simp [abFinish, cacheInsert, hxb]⟩
      · exact absurd (by simp [abFinish, cacheInsert, hxb]) hx

/-- A one-move board with a beta cutoff, used as the C7 witness. -/
def exC7W : Board := .mk .ongoing 1 3 (.cons 2 (.mk .ongoing (-4) 2 .nil .nil) .nil) .nil

/-- Witness for the amended C7 on `exC7W`: exercises the uncached and cached
reductions, a concrete loop cutoff (score 1 ≥ beta 1), and the insert shape
of a completed loop. -/
theorem c7_beta_cutoff_no_save_witness :
    (alphabeta 1 exC7W (fun _ => none) (-5) 1 0 =
      abFinish exC7W 1
        (abloop (fun p cc a bb rr => alphabeta 0 p cc a bb rr) exC7W true
          (order_moves exC7W none) 0 (order_moves exC7W none) (-99999) (-5) 1 none
          (fun _ => none))) ∧
    (alphabeta 1 exC7W (fun x => if x = exC7W then some ⟨⟨2, 0⟩, 0, .Pv⟩ else none)
        (-5) 1 0 =
      abFinish exC7W 1
        (abloop (fun p cc a bb rr => alphabeta 0 p cc a bb rr) exC7W false
          (order_moves exC7W (some ⟨2, 0⟩)) 0 (order_moves exC7W (some ⟨2, 0⟩))
          (-99999) (-5) 1 (some ⟨2, 0⟩)
          (fun x => if x = exC7W then some ⟨⟨2, 0⟩, 0, .Pv⟩ else none))) ∧
    (abloop (fun p cc a bb rr => alphabeta 0 p cc a bb rr) exC7W true [⟨2, 4⟩] 0
        [⟨2, 4⟩] (-99999) (-5) 1 none (fun _ => none) =
      .early
        (abScore (fun p cc a bb rr => alphabeta 0 p cc a bb rr) (make_move_new exC7W 2)
          true (legalStartsWith [⟨2, 4⟩] ⟨2, 4⟩) (-5) 1 0 (fun _ => none)).1
        (abScore (fun p cc a bb rr => alphabeta 0 p cc a bb rr) (make_move_new exC7W 2)
          true (legalStartsWith [⟨2, 4⟩] ⟨2, 4⟩) (-5) 1 0 (fun _ => none)).2) ∧
    (exC7W = exC7W ∧
      ∃ em2, (some ⟨2, 5⟩ : Option EvalMove) = some em2 ∧
        (abFinish exC7W 1 (.done 5 (some ⟨2, 5⟩) (fun _ => none))).2 exC7W =
          some ⟨em2, 1, .Pv⟩) := by
  refine ⟨?_, ?_, ?_, ?_⟩
  · exact (c7_beta_cutoff_no_save 0 exC7W).1 (fun _ => none) (-5) 1 0 rfl (by decide)
  · exact (c7_beta_cutoff_no_save 0 exC7W).2.1
      (fun x => if x = exC7W then some ⟨⟨2, 0⟩, 0, .Pv⟩ else none) ⟨⟨2, 0⟩, 0, .Pv⟩
      (-5) 1 0 (by decide) (by decide) (by decide)
  · exact (c7_beta_cutoff_no_save 0 exC7W).2.2.1 true [⟨2, 4⟩] 0 ⟨2, 4⟩ [] (-99999)
      (-5) 1 none (fun _ => none) (by decide)
  · exact (c7_beta_cutoff_no_save 0 exC7W).2.2.2.2 1 5 (some ⟨2, 5⟩) (fun _ => none)
      exC7W (by decide)

/-- The loop of the fuelled quiescence agrees with the real loop when every
capture child has fuel for its piece count. -/
theorem qloopFuelGo_eq (f cnt : Nat) (hcnt : cnt ≤ f + 1)
    (IH : ∀ b alpha beta, WFb b = true → b.count ≤ f →
      quiesceFuel f b alpha beta = quiesce b alpha beta)
    (caps : BList) : WFl cnt caps = true → ∀ alpha beta,
      qloopFuelGo (quiesceFuel f) caps alpha beta = qloop caps alpha beta :=
  match caps with
  | .nil => by intro _ alpha beta; rw [qloopFuelGo, qloop]
  | .cons mv pos rest => by
    intro hwf alpha beta
    simp only [WFl, Bool.and_eq_true, decide_eq_true_eq] at hwf
    obtain ⟨⟨hlt, hwb⟩, hwl⟩ := hwf
    have hpos := IH pos (-beta) (-alpha) hwb (by omega)
    rw [qloopFuelGo, qloop, hpos]
    split
    · rfl
    · exact qloopFuelGo_eq f cnt hcnt IH rest hwl _ _

/-- C10: `quiesce` takes no depth argument, but its recursion depth is bounded
by the piece count: whenever every masked capture strictly decreases the piece
count (`WFb`, the property the opponent-occupancy iterator mask guarantees),
the fuelled quiescence with fuel at least the piece count computes exactly
`quiesce`; in particular the recursion terminates after at most `count`
nested captures. -/
theorem c10_quiesce_fuel_bound (fuel : Nat) :
    ∀ (b : Board) (alpha beta : Int), WFb b = true → b.count ≤ fuel →
      quiesceFuel fuel b alpha beta = quiesce b alpha beta := by
  induction fuel with
  | zero =>
    intro b alpha beta hwf hc
    match b with
    | .mk st ev cnt mvs caps =>
      match caps with
      | .nil => rw [quiesceFuel, quiesce, qloop]; simp only [evaluate_board]
      | .cons mv pos rest =>
        exfalso
        simp only [WFb, WFl, Bool.and_eq_true, decide_eq_true_eq] at hwf
        simp only [Board.count] at hc
        omega
  | succ f IH =>
    intro b alpha beta hwf hc
    match b with
    | .mk st ev cnt mvs caps =>
      rw [quiesceFuel, quiesce]
      simp only [evaluate_board, Board.captures]
      split
      · rfl
      · exact qloopFuelGo_eq f cnt (by simpa [Board.count] using hc)
          IH caps (by simpa [WFb] using hwf) _ _

/-- Witness for C10: a concrete well-formed two-piece board with one capture. -/
theorem c10_quiesce_fuel_bound_witness :
    quiesceFuel 2 (.mk .ongoing 2 2 .nil (.cons 0 (.mk .ongoing 1 1 .nil .nil) .nil)) (-5) 5 =
      quiesce (.mk .ongoing 2 2 .nil (.cons 0 (.mk .ongoing 1 1 .nil .nil) .nil)) (-5) 5 :=
  c10_quiesce_fuel_bound 2 _ (-5) 5 (by decide) (by decide)

/-! ### C8: null-window re-search versus the plain full-window negamax -/

/-- A depth-2 tree: the root has moves 1 (to `exC8A`) and 2 (to `exC8B`);
each child has a single reply to a leaf. -/
def exC8A : Board := .mk .ongoing 7 3 (.cons 10 (.mk .ongoing 0 2 .nil .nil) .nil) .nil

def exC8B : Board := .mk .ongoing 5 3 (.cons 11 (.mk .ongoing 3 2 .nil .nil) .nil) .nil

def exC8R : Board := .mk .ongoing 0 4 (.cons 1 exC8A (.cons 2 exC8B .nil)) .nil

/-- A cache holding an entry for the root only (best move 1, eval 0, depth 1),
so the root is "previously seen" and non-first moves take the null-window
path. -/
def exC8Cache : Cache :=
  fun x => if x = exC8R then some ⟨⟨1, 0⟩, 1, .Pv⟩ else none

/-- C8 counterexample: on `exC8R` with window (-10, 10) at depth 2, the real
`alphabeta` scores move 2 through a null-window search whose cache insert is
then returned verbatim by the re-search's depth cutoff, giving 1; the
reference full-window negamax gives 3.  The committed `alphabeta` therefore
does use null-window re-searches and is not value-equivalent to the plain
full-window negamax. -/
theorem c8_counterexample :
    (alphabeta 2 exC8R exC8Cache (-10) 10 0).1 = 1 ∧
      (alphabetaRef 2 exC8R exC8Cache (-10) 10 0).1 = 3 ∧
      (alphabeta 2 exC8R exC8Cache (-10) 10 0).1 ≠
        (alphabetaRef 2 exC8R exC8Cache (-10) 10 0).1 := by
  refine ⟨by decide, by decide, by decide⟩

/-- The boards one legal move from `b` (the positions of its move list). -/
def childBoards (b : Board) : List Board := b.moves.toList.map Prod.snd

/-- Every position `alphabeta` may probe or cache within a given depth. -/
def nodes : Nat → Board → List Board
  | 0, _ => []
  | d + 1, b => b :: (childBoards b).flatMap (nodes d)

/-- Move keys are distinct at every position within the horizon (legal-move
lists never repeat a move). -/
def keysNodup : Nat → Board → Bool
  | 0, _ => true
  | d + 1, b =>
    decide (b.moves.toList.map Prod.fst).Nodup &&
      b.moves.toList.all fun p => keysNodup d p.2

/-- The cache carried by a loop outcome. -/
def loopCache : LoopOut → Cache
  | .early _ c => c
  | .done _ _ c => c

theorem insertDesc_perm (em : EvalMove) (l : List EvalMove) :
    (insertDesc em l).Perm (em :: l) := by
  induction l with
  | nil => simp [insertDesc]
  | cons e es ih =>
    rw [insertDesc]
    split
    · exact List.Perm.refl _
    · exact (ih.cons e).trans (List.Perm.swap em e es)

theorem sortDesc_perm (l : List EvalMove) : (sortDesc l).Perm l := by
  induction l with
  | nil => simp [sortDesc]
  | cons e es ih =>
    have h : sortDesc (e :: es) = insertDesc e (sortDesc es) := rfl
    rw [h]
    exact (insertDesc_perm e (sortDesc es)).trans (ih.cons e)

/-- Without a cached best move, the ordered list is exactly the statically
scored legal moves. -/
theorem order_moves_none_eq (b : Board) :
    order_moves b none =
      sortDesc (b.moves.toList.map fun p => ⟨p.1, -evaluate_board p.2⟩) := by
  simp only [order_moves, List.nil_append]
  congr 1
  induction b.moves.toList with
  | nil => rfl
  | cons p ps ih => simp [List.filterMap_cons, ih]

theorem mem_order_moves_none (b : Board) (em : EvalMove)
    (h : em ∈ order_moves b none) : ∃ p ∈ b.moves.toList, p.1 = em.mv := by
  rw [order_moves_none_eq] at h
  have h2 := (sortDesc_perm _).mem_iff.mp h
  obtain ⟨p, hp, he⟩ := List.mem_map.mp h2
  exact ⟨p, hp, by rw [← he]⟩

theorem order_moves_none_map_mv (b : Board) :
    ((order_moves b none).map EvalMove.mv).Perm (b.moves.toList.map Prod.fst) := by
  rw [order_moves_none_eq]
  refine ((sortDesc_perm _).map EvalMove.mv).trans ?_
  rw [List.map_map]
  exact List.Perm.refl _

theorem make_move_new_self_or_child (b : Board) (mv : Nat) :
    make_move_new b mv = b ∨ make_move_new b mv ∈ childBoards b := by
  unfold make_move_new
  cases hfind : b.moves.toList.find? (fun p => p.1 == mv) with
  | none => exact .inl rfl
  | some p =>
    exact .inr (List.mem_map_of_mem Prod.snd (List.mem_of_find?_eq_some hfind))

theorem make_move_new_of_mem (b : Board) (p : Nat × Board) (hp : p ∈ b.moves.toList)
    (hkeys : (b.moves.toList.map Prod.fst).Nodup) : make_move_new b p.1 = p.2 := by
  unfold make_move_new
  cases hfind : b.moves.toList.find? (fun q => q.1 == p.1) with
  | none =>
    exfalso
    have := List.find?_eq_none.mp hfind p hp
    simp at this
  | some q =>
    have hqmem := List.mem_of_find?_eq_some hfind
    have hqkey : q.1 = p.1 := by simpa using List.find?_some hfind
    have hqp : q = p := List.inj_on_of_nodup_map hkeys hqmem hp hqkey
    simp [hqp]

theorem nodes_self (d : Nat) (b : Board) : b ∈ nodes (d + 1) b := by
  simp [nodes]

theorem nodes_mono (d : Nat) : ∀ (b : Board), nodes d b ⊆ nodes (d + 1) b := by
  induction d with
  | zero => intro b x hx; simp [nodes] at hx
  | succ d ih =>
    intro b x hx
    rw [nodes] at hx
    rw [nodes]
    rcases List.mem_cons.mp hx with h | h
    · exact h ▸ List.mem_cons_self _ _
    · obtain ⟨cb, hcb, hx2⟩ := List.mem_flatMap.mp h
      exact List.mem_cons_of_mem _ (List.mem_flatMap.mpr ⟨cb, hcb, ih cb hx2⟩)

theorem nodes_sub_of_child (d : Nat) (b pos : Board) (hpos : pos ∈ childBoards b) :
    nodes d pos ⊆ nodes (d + 1) b := by
  intro x hx
  rw [nodes]
  exact List.mem_cons_of_mem _ (List.mem_flatMap.mpr ⟨pos, hpos, hx⟩)

theorem nodes_sub_move (d : Nat) (b : Board) (mv : Nat) :
    nodes d (make_move_new b mv) ⊆ nodes (d + 1) b := by
  rcases make_move_new_self_or_child b mv with h | h
  · rw [h]; exact nodes_mono d b
  · exact nodes_sub_of_child d b _ h

/-- Two distinct elements of a list with `Nodup` flatMap have disjoint images. -/
theorem disjoint_of_nodup_flatMap {α β : Type} {f : α → List β} :
    ∀ (l : List α), (l.flatMap f).Nodup →
      ∀ x1 x2, x1 ∈ l → x2 ∈ l → x1 ≠ x2 → List.Disjoint (f x1) (f x2) := by
  intro l
  induction l with
  | nil => intro _ x1 x2 h1; simp at h1
  | cons a l ih =>
    intro hnd x1 x2 h1 h2 hne
    rw [List.flatMap_cons, List.nodup_append] at hnd
    obtain ⟨hfa, hfl, hdisj⟩ := hnd
    rcases List.mem_cons.mp h1 with h1a | h1l <;> rcases List.mem_cons.mp h2 with h2a | h2l
    · exact absurd (h1a.trans h2a.symm) hne
    · subst h1a
      intro y hy1 hy2
      exact hdisj hy1 (List.mem_flatMap.mpr ⟨x2, h2l, hy2⟩)
    · subst h2a
      intro y hy1 hy2
      exact hdisj hy2 (List.mem_flatMap.mpr ⟨x1, h1l, hy1⟩)
    · exact ih hfl x1 x2 h1l h2l hne

theorem keysNodup_succ (d : Nat) (b : Board) (h : keysNodup (d + 1) b = true) :
    (b.moves.toList.map Prod.fst).Nodup ∧
      ∀ p ∈ b.moves.toList, keysNodup d p.2 = true := by
  rw [keysNodup, Bool.and_eq_true, decide_eq_true_eq, List.all_eq_true] at h
  exact h

/-- The flatMap of node sets over the children, indexed by the move list. -/
theorem nodes_tail_eq (d : Nat) (b : Board) :
    (childBoards b).flatMap (nodes d) =
      b.moves.toList.flatMap (fun p => nodes d p.2) := by
  rw [childBoards, List.flatMap_map]

/-- `abFinish` changes the loop's cache at most at the searched board. -/
theorem abFinish_cache (b : Board) (dep : Nat) (out : LoopOut) (x : Board)
    (hx : (abFinish b dep out).2 x ≠ loopCache out x) : x = b := by
  cases out with
  | early v c => exact absurd rfl hx
  | done maxv bm c =>
    cases bm with
    | none => exact absurd rfl hx
    | some em =>
      by_cases hxb : x = b
      · exact hxb
      · exact absurd (by simp [abFinish, loopCache, cacheInsert, hxb]) hx

/-- The score step touches the cache only at nodes below the searched child. -/
theorem abScore_cache_delta (d : Nat)
    (ih : ∀ (b : Board) (c : Cache) (alpha beta : Int) (r : Nat) (x : Board),
      (alphabeta d b c alpha beta r).2 x ≠ c x → x ∈ nodes d b)
    (pos : Board) (pu fi : Bool) (alpha beta : Int) (r : Nat) (c : Cache) (x : Board)
    (hx : (abScore (fun p cc a bb rr => alphabeta d p cc a bb rr) pos pu fi alpha beta r
      c).2 x ≠ c x) : x ∈ nodes d pos := by
  rw [abScore] at hx
  split at hx
  · exact ih pos c _ _ _ x hx
  · split at hx
    · exact ih pos c _ _ _ x hx
    · split at hx
      · by_cases h0 : (alphabeta d pos c (-alpha - 1) (-alpha) (r + 1)).2 x = c x
        · rw [← h0] at hx
          exact ih pos _ _ _ _ x hx
        · exact ih pos c _ _ _ x h0
      · exact ih pos c _ _ _ x hx

/-- The move loop touches the cache only at nodes within one ply plus the
children's horizons. -/
theorem abloop_cache_delta (d : Nat)
    (ih : ∀ (b : Board) (c : Cache) (alpha beta : Int) (r : Nat) (x : Board),
      (alphabeta d b c alpha beta r).2 x ≠ c x → x ∈ nodes d b)
    (b : Board) (pu : Bool) (legal : List EvalMove) (r : Nat) :
    ∀ (rem : List EvalMove) (maxv alpha beta : Int) (bm : Option EvalMove) (c : Cache)
      (x : Board),
      loopCache (abloop (fun p cc a bb rr => alphabeta d p cc a bb rr) b pu legal r rem
        maxv alpha beta bm c) x ≠ c x → x ∈ nodes (d + 1) b := by
  intro rem
  induction rem with
  | nil =>
    intro maxv alpha beta bm c x hx
    rw [abloop] at hx
    exact absurd rfl hx
  | cons em rest ihrest =>
    intro maxv alpha beta bm c x hx
    rw [abloop, abIter] at hx
    set sc := abScore (fun p cc a bb rr => alphabeta d p cc a bb rr)
      (make_move_new b em.mv) pu (legalStartsWith legal em) alpha beta r c with hscdef
    have hscd : sc.2 x ≠ c x → x ∈ nodes (d + 1) b := fun hne =>
      nodes_sub_move d b em.mv (abScore_cache_delta d ih _ pu _ alpha beta r c x hne)
    split at hx
    · exact hscd hx
    · rw [abAfter] at hx
      split at hx
      · exact hscd hx
      · by_cases hmid : sc.2 x = c x
        · rw [← hmid] at hx
          exact ihrest _ _ _ _ sc.2 x hx
        · exact hscd hmid

/-- `alphabeta` touches the cache only at positions within its depth horizon. -/
theorem alphabeta_cache_delta (d : Nat) :
    ∀ (b : Board) (c : Cache) (alpha beta : Int) (r : Nat) (x : Board),
      (alphabeta d b c alpha beta r).2 x ≠ c x → x ∈ nodes d b := by
  induction d with
  | zero =>
    intro b c alpha beta r x hx
    rw [alphabeta] at hx
    exact absurd rfl hx
  | succ d ih =>
    intro b c alpha beta r x hx
    rw [alphabeta] at hx
    by_cases hck : b.status = .checkmate
    · simp only [hck, if_true] at hx
      exact absurd rfl hx
    · simp only [hck, if_false] at hx
      cases hcb : c b with
      | some te =>
        rw [hcb] at hx
        by_cases hod : te.old_depth ≥ d + 1
        · simp only [hod, if_true] at hx
          exact absurd rfl hx
        · simp only [hod, if_false] at hx
          by_cases hloop : loopCache (abloop (fun p cc a bb rr => alphabeta d p cc a bb rr)
              b false (order_moves b (some te.best_move)) r
              (order_moves b (some te.best_move)) (-99999) alpha beta
              (some te.best_move) c) x = c x
          · have hxb := abFinish_cache b (d + 1) _ x (by
              intro hfin
              rw [hfin] at hx
              exact hx hloop)
            exact hxb ▸ nodes_self d b
          · exact abloop_cache_delta d ih b false _ r _ _ alpha beta _ c x hloop
      | none =>
        rw [hcb] at hx
        by_cases hloop : loopCache (abloop (fun p cc a bb rr => alphabeta d p cc a bb rr)
            b true (order_moves b none) r (order_moves b none) (-99999) alpha beta
            none c) x = c x
        · have hxb := abFinish_cache b (d + 1) _ x (by
            intro hfin
            rw [hfin] at hx
            exact hx hloop)
          exact hxb ▸ nodes_self d b
        · exact abloop_cache_delta d ih b true _ r _ _ alpha beta _ c x hloop

/-- On an unseen position the score step is the full-window search, whatever
the principal-variation flag. -/
theorem abScore_unseen (recur : Board → Cache → Int → Int → Nat → Int × Cache)
    (pos : Board) (fi : Bool) (alpha beta : Int) (rd : Nat) (c : Cache) :
    abScore recur pos true fi alpha beta rd c =
      (-(recur pos c (-beta) (-alpha) (rd + 1)).1,
        (recur pos c (-beta) (-alpha) (rd + 1)).2) := by
  rw [abScore]
  simp

/-- An iteration only consults its continuation at the score's cache. -/
theorem abIter_congr (k1 k2 : Int → Int → Int → Option EvalMove → Cache → LoopOut)
    (em : EvalMove) (maxv alpha beta : Int) (bm : Option EvalMove) (rd : Nat)
    (sc : Int × Cache)
    (hk : ∀ m a bb bmm, k1 m a bb bmm sc.2 = k2 m a bb bmm sc.2) :
    abIter k1 em maxv alpha beta bm rd sc = abIter k2 em maxv alpha beta bm rd sc := by
  rw [abIter, abIter]
  split
  · rfl
  · rw [abAfter, abAfter]
    split
    · rfl
    · exact hk _ _ _ _

/-- Under a cache with no entry for any position in the children's horizons
(all distinct), the move loop of `alphabeta` coincides with the full-window
reference loop. -/
theorem abloop_equiv (d : Nat)
    (ihequiv : ∀ (b2 : Board) (c : Cache) (alpha beta : Int) (r : Nat),
      (∀ x ∈ nodes d b2, c x = none) → (nodes d b2).Nodup → keysNodup d b2 = true →
      alphabeta d b2 c alpha beta r = alphabetaRef d b2 c alpha beta r)
    (b : Board) (legal : List EvalMove) (r : Nat) :
    ∀ (rem : List EvalMove) (maxv alpha beta : Int) (bm : Option EvalMove) (c : Cache),
      (∀ em ∈ rem, ∀ x ∈ nodes d (make_move_new b em.mv), c x = none) →
      (∀ em ∈ rem, (nodes d (make_move_new b em.mv)).Nodup) →
      (∀ em ∈ rem, keysNodup d (make_move_new b em.mv) = true) →
      (∀ em1 ∈ rem, ∀ em2 ∈ rem, em1.mv ≠ em2.mv →
        List.Disjoint (nodes d (make_move_new b em1.mv))
          (nodes d (make_move_new b em2.mv))) →
      (rem.map EvalMove.mv).Nodup →
      abloop (fun p cc a bb rr => alphabeta d p cc a bb rr) b true legal r rem
          maxv alpha beta bm c =
        abloopRef (fun p cc a bb rr => alphabetaRef d p cc a bb rr) b r rem
          maxv alpha beta bm c := by
  intro rem
  induction rem with
  | nil =>
    intro maxv alpha beta bm c _ _ _ _ _
    rw [abloop, abloopRef]
  | cons em rest ihrest =>
    intro maxv alpha beta bm c H1 H2 H3 H4 H5
    rw [abloop, abloopRef]
    have hmem : em ∈ em :: rest := List.mem_cons_self _ _
    have hq : alphabeta d (make_move_new b em.mv) c (-beta) (-alpha) (r + 1) =
        alphabetaRef d (make_move_new b em.mv) c (-beta) (-alpha) (r + 1) :=
      ihequiv _ c _ _ _ (H1 em hmem) (H2 em hmem) (H3 em hmem)
    simp only [abScore_unseen]
    rw [hq]
    apply abIter_congr
    intro m a bb bmm
    have hc2ab : (alphabetaRef d (make_move_new b em.mv) c (-beta) (-alpha) (r + 1)).2 =
        (alphabeta d (make_move_new b em.mv) c (-beta) (-alpha) (r + 1)).2 := by rw [hq]
    have hdelta : ∀ x,
        (alphabetaRef d (make_move_new b em.mv) c (-beta) (-alpha) (r + 1)).2 x ≠ c x →
        x ∈ nodes d (make_move_new b em.mv) := by
      intro x hxne
      rw [hc2ab] at hxne
      exact alphabeta_cache_delta d _ c _ _ _ x hxne
    have hmvnodup : em.mv ∉ rest.map EvalMove.mv ∧ (rest.map EvalMove.mv).Nodup :=
      List.nodup_cons.mp (show (em.mv :: rest.map EvalMove.mv).Nodup from H5)
    refine ihrest m a bb bmm _ ?_ ?_ ?_ ?_ hmvnodup.2
    · intro em2 hem2 x hx
      by_cases hche :
          (alphabetaRef d (make_move_new b em.mv) c (-beta) (-alpha) (r + 1)).2 x = c x
      · rw [hche]
        exact H1 em2 (List.mem_cons_of_mem _ hem2) x hx
      · exfalso
        have hxin := hdelta x hche
        have hne : em.mv ≠ em2.mv := by
          intro hmveq
          have hm2 : em2.mv ∈ rest.map EvalMove.mv := List.mem_map_of_mem _ hem2
          rw [← hmveq] at hm2
          exact hmvnodup.1 hm2
        exact H4 em hmem em2 (List.mem_cons_of_mem _ hem2) hne hxin hx
    · intro em2 hem2
      exact H2 em2 (List.mem_cons_of_mem _ hem2)
    · intro em2 hem2
      exact H3 em2 (List.mem_cons_of_mem _ hem2)
    · intro em1 h1 em2 h2 hne
      exact H4 em1 (List.mem_cons_of_mem _ h1) em2 (List.mem_cons_of_mem _ h2) hne

/-- When the cache holds no entry for any position probed within the depth
horizon, and positions and move keys in that horizon are distinct,
`alphabeta` computes exactly the full-window reference negamax (every probe
misses, so `position_unseen` is always set and every move is searched with
the full window). -/
theorem alphabeta_ref_equiv (d : Nat) :
    ∀ (b : Board) (c : Cache) (alpha beta : Int) (r : Nat),
      (∀ x ∈ nodes d b, c x = none) → (nodes d b).Nodup → keysNodup d b = true →
      alphabeta d b c alpha beta r = alphabetaRef d b c alpha beta r := by
  induction d with
  | zero =>
    intro b c alpha beta r _ _ _
    rw [alphabeta, alphabetaRef]
  | succ d ih =>
    intro b c alpha beta r hnone hnodup hkeys
    have hcb : c b = none := hnone b (nodes_self d b)
    by_cases hck : b.status = .checkmate
    · simp only [alphabeta, alphabetaRef, hck, if_true]
    · simp only [alphabeta, alphabetaRef, hcb, hck, if_false]
      congr 1
      obtain ⟨hkeys1, hkeys2⟩ := keysNodup_succ d b hkeys
      have hnd3 : (b.moves.toList.flatMap (fun p => nodes d p.2)).Nodup := by
        rw [← nodes_tail_eq]
        rw [nodes] at hnodup
        exact (List.nodup_cons.mp hnodup).2
      have hres : ∀ em ∈ order_moves b none, ∃ p ∈ b.moves.toList,
          p.1 = em.mv ∧ make_move_new b em.mv = p.2 := by
        intro em hem
        obtain ⟨p, hp, hpmv⟩ := mem_order_moves_none b em hem
        exact ⟨p, hp, hpmv, by rw [← hpmv]; exact make_move_new_of_mem b p hp hkeys1⟩
      apply abloop_equiv d ih b (order_moves b none) r (order_moves b none)
      · intro em hem x hx
        obtain ⟨p, hp, _, hmmn⟩ := hres em hem
        apply hnone
        rw [hmmn] at hx
        exact nodes_sub_of_child d b p.2 (List.mem_map_of_mem Prod.snd hp) hx
      · intro em hem
        obtain ⟨p, hp, _, hmmn⟩ := hres em hem
        rw [hmmn]
        exact (List.nodup_flatMap.mp hnd3).1 p hp
      · intro em hem
        obtain ⟨p, hp, _, hmmn⟩ := hres em hem
        rw [hmmn]
        exact hkeys2 p hp
      · intro em1 h1 em2 h2 hne
        obtain ⟨p1, hp1, hpmv1, hmmn1⟩ := hres em1 h1
        obtain ⟨p2, hp2, hpmv2, hmmn2⟩ := hres em2 h2
        rw [hmmn1, hmmn2]
        have hpne : p1 ≠ p2 := by
          intro he
          rw [he, hpmv2] at hpmv1
          exact hne hpmv1.symm
        exact disjoint_of_nodup_flatMap b.moves.toList hnd3 p1 p2 hp1 hp2 hpne
      · exact (order_moves_none_map_mv b).nodup_iff.mpr hkeys1

/-- C8 (amended): the committed `alphabeta` does use null-window re-searches
(see the counterexample), but it performs a plain full-window negamax whenever
every probe misses: if the cache holds no entry for any position reachable
within the search depth and the positions and move keys in that horizon are
pairwise distinct, its value equals the reference negamax that recurses on
every ordered move with the full window `(-beta, -alpha)`. -/
theorem c8_plain_negamax_no_hits (d : Nat) (b : Board) (c : Cache) (alpha beta : Int)
    (r : Nat) (hnone : ∀ x ∈ nodes d b, c x = none) (hnodup : (nodes d b).Nodup)
    (hkeys : keysNodup d b = true) :
    (alphabeta d b c alpha beta r).1 = (alphabetaRef d b c alpha beta r).1 := by
  rw [alphabeta_ref_equiv d b c alpha beta r hnone hnodup hkeys]

/-- A fresh two-ply tree used as the C8 witness. -/
def exC8W : Board :=
  .mk .ongoing 0 3 (.cons 5 (.mk .ongoing 2 2 (.cons 6 (.mk .ongoing 1 1 .nil .nil) .nil) .nil) .nil) .nil

/-- Witness for the amended C8 on `exC8W` with an empty cache at depth 2. -/
theorem c8_plain_negamax_no_hits_witness :
    (alphabeta 2 exC8W (fun _ => none) (-10) 10 0).1 =
      (alphabetaRef 2 exC8W (fun _ => none) (-10) 10 0).1 :=
  c8_plain_negamax_no_hits 2 exC8W (fun _ => none) (-10) 10 0 (fun _ _ => rfl)
    (by decide) (by decide)

end Search

/-! ## Move election (src/engine/threads.rs, `ThreadPool::elect_best_move`,
lines 430-451)

A vote is a worker's `(best_move, score, completed_depth)` triple
(`Worker::vote`).  The Rust code accumulates the per-move weights in a
`HashMap` and takes `drain().max_by_key(...)`; the iteration order of the map
is unspecified, so the model fixes first-insertion order (an association
list updated in place) — the property proved (the returned move attains the
maximum summed weight) is independent of that order.  `max_by_key` keeps the
last of equally maximal elements, modelled by replacing on `≤`. -/

namespace Threads

/-- `votes.iter().map(score).min().unwrap()`; the unwrap panics on no votes,
modelled by a default never reached (election requires at least one vote). -/
def min_score (votes : List (Nat × Int × Nat)) : Int :=
  match votes.map (fun v => v.2.1) with
  | [] => 0
  | s :: ss => ss.foldl min s

/-- Two's-complement wrap into the `i16` range. -/
def wrap16 (x : Int) : Int := (x + 32768) % 65536 - 32768

/-- The weight of one vote: `(score - min_score + 14) as i32 * depth as i32`
(threads.rs:437).  The parenthesised subtraction is computed in the 16-bit
`Eval` type — `Eval` is pinned to `i16` by the 8-byte `TTEntry` transmute in
ttable.rs — and only the result is cast to `i32`, so it wraps when
`score - min_score + 14` leaves the `i16` range; the `i32` multiply by a `u8`
depth cannot overflow. -/
def weight (ms : Int) (v : Nat × Int × Nat) : Int :=
  wrap16 (v.2.1 - ms + 14) * (v.2.2 : Int)

/-- Modelled from the claim's words: the weight `(score - min_score + 14) *
completed_depth` as the claim states it, without the `i16` wrap the code
performs. -/
def weightSpec (ms : Int) (v : Nat × Int × Nat) : Int := (v.2.1 - ms + 14) * (v.2.2 : Int)

/-- `election.entry(mv).and_modify(|v| *v += value).or_insert(value)`. -/
def addVote (el : List (Nat × Int)) (mv : Nat) (w : Int) : List (Nat × Int) :=
  match el with
  | [] => [(mv, w)]
  | (k, v) :: rest => if k = mv then (k, v + w) :: rest else (k, v) :: addVote rest mv w

/-- The election map after all votes are tallied. -/
def election (votes : List (Nat × Int × Nat)) : List (Nat × Int) :=
  votes.foldl (fun el v => addVote el v.1 (weight (min_score votes) v)) []

/-- `election.drain().max_by_key(|&(_, v)| v).unwrap().0`. -/
def elect_best_move (votes : List (Nat × Int × Nat)) : Nat :=
  match election votes with
  | [] => 0
  | e :: rest => (rest.foldl (fun best x => if best.2 ≤ x.2 then x else best) e).1

/-- The summed weight of a move over all votes naming it. -/
def weightOf (votes : List (Nat × Int × Nat)) (m : Nat) : Int :=
  ((votes.filter (fun v => v.1 == m)).map (weight (min_score votes))).sum

/-- First-match lookup in the election list, 0 when absent. -/
def assocVal (el : List (Nat × Int)) (m : Nat) : Int :=
  match el with
  | [] => 0
  | (k, v) :: rest => if k = m then v else assocVal rest m

theorem addVote_val (el : List (Nat × Int)) (mv : Nat) (w : Int) (m : Nat) :
    assocVal (addVote el mv w) m = assocVal el m + (if m = mv then w else 0) := by
  induction el with
  | nil =>
    by_cases h : m = mv
    · simp [addVote, assocVal, h]
    · have h2 : ¬ mv = m := fun hh => h hh.symm
      simp [addVote, assocVal, h, h2]
  | cons kv rest ih =>
    obtain ⟨k, v⟩ := kv
    rw [addVote]
    by_cases hk : k = mv
    · simp only [hk, if_true]
      by_cases hm : mv = m
      · simp [assocVal, hm]
      · have hm2 : ¬ m = mv := fun hh => hm hh.symm
        simp [assocVal, hm, hm2]
    · simp only [hk, if_false]
      by_cases hm : k = m
      · have : ¬ m = mv := fun hh => hk (hm.trans hh)
        simp [assocVal, hm, this]
      · simp [assocVal, hm, ih]

theorem mem_keys_addVote (el : List (Nat × Int)) (mv : Nat) (w : Int) (x : Nat) :
    x ∈ (addVote el mv w).map Prod.fst ↔ x ∈ el.map Prod.fst ∨ x = mv := by
  induction el with
  | nil => simp [addVote]
  | cons kv rest ih =>
    obtain ⟨k, v⟩ := kv
    rw [addVote]
    by_cases hk : k = mv
    · subst hk
      simp only [if_true, List.map_cons, List.mem_cons]
      tauto
    · simp only [hk, if_false, List.map_cons, List.mem_cons, ih]
      tauto

theorem addVote_nodupKeys (el : List (Nat × Int)) (mv : Nat) (w : Int)
    (h : (el.map Prod.fst).Nodup) : ((addVote el mv w).map Prod.fst).Nodup := by
  induction el with
  | nil => simp [addVote]
  | cons kv rest ih =>
    obtain ⟨k, v⟩ := kv
    rw [List.map_cons, List.nodup_cons] at h
    rw [addVote]
    by_cases hk : k = mv
    · simpa [hk] using h
    · rw [if_neg hk, List.map_cons, List.nodup_cons]
      refine ⟨?_, ih h.2⟩
      rw [mem_keys_addVote]
      rintro (hin | hin)
      · exact h.1 hin
      · exact hk hin

theorem assocVal_of_mem_nodup (el : List (Nat × Int)) (p : Nat × Int)
    (hnd : (el.map Prod.fst).Nodup) (hp : p ∈ el) : assocVal el p.1 = p.2 := by
  induction el with
  | nil => cases hp
  | cons kv rest ih =>
    obtain ⟨k, v⟩ := kv
    rw [List.map_cons, List.nodup_cons] at hnd
    rcases List.mem_cons.mp hp with h | h
    · rw [h, assocVal, if_pos rfl]
    · rw [assocVal]
      have hne : k ≠ p.1 := by
        intro he
        exact hnd.1 (he ▸ List.mem_map.mpr ⟨p, h, rfl⟩)
      rw [if_neg hne]
      exact ih hnd.2 h

theorem foldl_addVote_val (f : Nat × Int × Nat → Int) :
    ∀ (votes : List (Nat × Int × Nat)) (el : List (Nat × Int)) (m : Nat),
      assocVal (votes.foldl (fun acc v => addVote acc v.1 (f v)) el) m =
        assocVal el m + ((votes.filter (fun v => v.1 == m)).map f).sum := by
  intro votes
  induction votes with
  | nil => intro el m; simp
  | cons v vs ih =>
    intro el m
    rw [List.foldl_cons, ih, addVote_val]
    by_cases hm : v.1 = m
    · simp [List.filter_cons, hm]
      ring
    · have : ¬ m = v.1 := fun hh => hm hh.symm
      simp [List.filter_cons, hm, this]

theorem election_val (votes : List (Nat × Int × Nat)) (m : Nat) :
    assocVal (election votes) m = weightOf votes m := by
  rw [election, foldl_addVote_val, weightOf, assocVal]
  ring

theorem election_nodupKeys (votes : List (Nat × Int × Nat)) :
    ((election votes).map Prod.fst).Nodup := by
  rw [election]
  generalize (weight (min_score votes)) = f
  have h : ∀ (vs : List (Nat × Int × Nat)) (el : List (Nat × Int)),
      (el.map Prod.fst).Nodup →
      ((vs.foldl (fun acc v => addVote acc v.1 (f v)) el).map Prod.fst).Nodup := by
    intro vs
    induction vs with
    | nil => intro el h; exact h
    | cons v vs ih => intro el h; exact ih _ (addVote_nodupKeys el v.1 (f v) h)
  exact h votes [] (by simp)

theorem mem_keys_election (votes : List (Nat × Int × Nat)) (v : Nat × Int × Nat)
    (hv : v ∈ votes) : v.1 ∈ (election votes).map Prod.fst := by
  rw [election]
  generalize (weight (min_score votes)) = f
  have grow : ∀ (vs : List (Nat × Int × Nat)) (el : List (Nat × Int)) (x : Nat),
      x ∈ el.map Prod.fst →
      x ∈ (vs.foldl (fun acc w => addVote acc w.1 (f w)) el).map Prod.fst := by
    intro vs
    induction vs with
    | nil => intro el x h; exact h
    | cons w ws ih =>
      intro el x h
      exact ih _ x ((mem_keys_addVote el w.1 (f w) x).mpr (.inl h))
  have h : ∀ (vs : List (Nat × Int × Nat)) (el : List (Nat × Int)), v ∈ vs →
      v.1 ∈ (vs.foldl (fun acc w => addVote acc w.1 (f w)) el).map Prod.fst := by
    intro vs
    induction vs with
    | nil => intro el h; cases h
    | cons w ws ih =>
      intro el hmem
      rcases List.mem_cons.mp hmem with h | h
      · subst h
        exact grow ws _ v.1 ((mem_keys_addVote el v.1 (f v) v.1).mpr (.inr rfl))
      · exact ih _ h
  exact h votes [] hv

theorem foldl_max_mem (e : Nat × Int) (rest : List (Nat × Int)) :
    (rest.foldl (fun best x => if best.2 ≤ x.2 then x else best) e) ∈ e :: rest := by
  induction rest generalizing e with
  | nil => simp
  | cons x xs ih =>
    rw [List.foldl_cons]
    rcases List.mem_cons.mp (ih (if e.2 ≤ x.2 then x else e)) with h | h
    · rw [h]
      split
      · simp
      · simp
    · simp [h]

theorem foldl_max_ge (rest : List (Nat × Int)) :
    ∀ (e : Nat × Int), ∀ y ∈ e :: rest,
      y.2 ≤ (rest.foldl (fun best x => if best.2 ≤ x.2 then x else best) e).2 := by
  induction rest with
  | nil =>
    intro e y hy
    rcases List.mem_cons.mp hy with h | h
    · simp [h]
    · cases h
  | cons x xs ih =>
    intro e y hy
    rw [List.foldl_cons]
    have hhead : ∀ z : Nat × Int, z = e ∨ z = x →
        z.2 ≤ (xs.foldl (fun best w => if best.2 ≤ w.2 then w else best)
          (if e.2 ≤ x.2 then x else e)).2 := by
      intro z hz
      have hinit : z.2 ≤ (if e.2 ≤ x.2 then x else e).2 := by
        rcases hz with h | h <;> rw [h] <;> split <;> omega
      exact le_trans hinit
        (ih _ _ (List.mem_cons_self _ _))
    rcases List.mem_cons.mp hy with h | h
    · exact hhead y (.inl h)
    · rcases List.mem_cons.mp h with h2 | h2
      · exact hhead y (.inr h2)
      · exact ih _ y (List.mem_cons_of_mem _ h2)

/-- C9 counterexample: the claim's weight is the mathematical
`(score - min_score + 14) * completed_depth`, but threads.rs:437 computes the
parenthesised term in `i16`, which wraps for vote spreads above 32753 —
reachable with in-range engine scores.  With the two votes `(m1, +31998, 1)`
and `(m2, -800, 1)`, `min_score = -800`; m1's claimed weight is
`(31998 + 800 + 14) * 1 = 32812`, m2's is 14, yet the code's wrapped weight of
m1 is `32812 - 65536 = -32724`, so the election returns m2 — not the move
maximising the claim's weight. -/
theorem c9_counterexample :
    elect_best_move [(1, 31998, 1), (2, -800, 1)] = 2 ∧
      weightSpec (min_score [(1, 31998, 1), (2, -800, 1)]) (1, 31998, 1) >
        weightSpec (min_score [(1, 31998, 1), (2, -800, 1)]) (2, -800, 1) := by
  refine ⟨by decide, by decide⟩

/-- C9 (amended): `elect_best_move` returns a move whose summed weight is
maximal when the weight is computed as the code computes it, with
`(score - min_score + 14)` wrapped to `i16`; the wrapped weight agrees with
the claim's formula whenever that term fits in `i16`; and on the claim's two
votes `(m1, +50, 10)`, `(m2, +40, 10)` it returns `m1`, whose weight 240
beats 140. -/
theorem c9_elect_best_move :
    (∀ (votes : List (Nat × Int × Nat)) (v : Nat × Int × Nat), v ∈ votes →
        weightOf votes v.1 ≤ weightOf votes (elect_best_move votes)) ∧
      (∀ (ms : Int) (v : Nat × Int × Nat), -32768 ≤ v.2.1 - ms + 14 →
        v.2.1 - ms + 14 < 32768 → weight ms v = weightSpec ms v) ∧
      elect_best_move [(0, 50, 10), (1, 40, 10)] = 0 ∧
      weightOf [(0, 50, 10), (1, 40, 10)] 0 = 240 ∧
      weightOf [(0, 50, 10), (1, 40, 10)] 1 = 140 := by
  refine ⟨?_, ?_, by decide, by decide, by decide⟩
  case refine_2 =>
    intro ms v h1 h2
    rw [weight, weightSpec]
    have hw : wrap16 (v.2.1 - ms + 14) = v.2.1 - ms + 14 := by
      rw [wrap16]
      omega
    rw [hw]
  intro votes v hv
  have hkey := mem_keys_election votes v hv
  have hnd := election_nodupKeys votes
  cases helec : election votes with
  | nil => rw [helec] at hkey; cases hkey
  | cons e rest =>
    rw [elect_best_move, helec]
    rw [helec] at hkey hnd
    obtain ⟨q, hq, hq1⟩ := List.mem_map.mp hkey
    have hqval : assocVal (e :: rest) q.1 = q.2 := assocVal_of_mem_nodup _ q hnd hq
    have hpmem := foldl_max_mem e rest
    have hpval : assocVal (e :: rest)
        (rest.foldl (fun best x => if best.2 ≤ x.2 then x else best) e).1 =
        (rest.foldl (fun best x => if best.2 ≤ x.2 then x else best) e).2 :=
      assocVal_of_mem_nodup _ _ hnd hpmem
    have hge := foldl_max_ge rest e q hq
    calc weightOf votes v.1 = assocVal (e :: rest) v.1 := by
          rw [← election_val, helec]
      _ = q.2 := by rw [← hq1, hqval]
      _ ≤ (rest.foldl (fun best x => if best.2 ≤ x.2 then x else best) e).2 := hge
      _ = assocVal (e :: rest)
            (rest.foldl (fun best x => if best.2 ≤ x.2 then x else best) e).1 :=
          hpval.symm
      _ = weightOf votes
            (rest.foldl (fun best x => if best.2 ≤ x.2 then x else best) e).1 := by
          rw [← election_val, helec]

/-- Witness for C9 at the claim's concrete two votes, exercising both the
maximality part and the no-wrap agreement part. -/
theorem c9_elect_best_move_witness :
    weightOf [(0, 50, 10), (1, 40, 10)] 1 ≤
      weightOf [(0, 50, 10), (1, 40, 10)]
        (elect_best_move [(0, 50, 10), (1, 40, 10)]) ∧
      weight 40 (0, 50, 10) = weightSpec 40 (0, 50, 10) :=
  ⟨c9_elect_best_move.1 [(0, 50, 10), (1, 40, 10)] (1, 40, 10) (by decide),
    c9_elect_best_move.2.1 40 (0, 50, 10) (by decide) (by decide)⟩

end Threads

end Transparov
